import Mathlib

/-!
Verification of the header-transformation pipeline of qbdpy
(`src/qbdpy/build_all.py`).

The Python source works line-by-line on header text using `re` patterns.
We shallow-embed each pass as a function over `List Char`:

* text is `List Char` (one Python `str` character per `Char`);
* Python's `\s`, `\d`, `\S` character classes are modelled by their ASCII
  fragments (C headers are ASCII), `str.splitlines` by its ASCII terminator
  set (with `"\r\n"` combined);
* each anchored regex (`re.match`) is compiled by hand into a deterministic
  scanner; where the regex needs backtracking (the optional comment group of
  `_bitfield_matcher`, whose lazy `.*?` may be extended when a later `*/`
  makes the rest of the pattern succeed) the scanner searches candidate
  comment ends left to right exactly as the engine does;
* the global `_name_counter` becomes an explicit `Int` threaded through the
  stateful passes; the external preprocessor (`gcc -E`) is an abstract
  function argument, and `preprocess_header`'s error handling is embedded
  over its observable inputs (captured stdout, stderr, exit status).

Recursions that a later witness must evaluate are written with structural
recursion or explicit fuel so that `decide`/`rfl` can reduce them.
-/

namespace Qbdpy

/-- ASCII fragment of Python's `\s` class: space, tab, newline, carriage
return, vertical tab, form feed. -/
def isSpace (c : Char) : Bool :=
  c = ' ' || c = '\t' || c = '\n' || c = '\r' || c = '\x0b' || c = '\x0c'

/-- Terminators recognised by Python's `str.splitlines` (ASCII part plus the
three non-ASCII ones Python also splits on). -/
def isLineBreak (c : Char) : Bool :=
  c = '\n' || c = '\r' || c = '\x0b' || c = '\x0c' ||
  c = '\x1c' || c = '\x1d' || c = '\x1e' || c = '\x85' || c = '\u2028' || c = '\u2029'

/-- Strip an expected leading sequence `p` from `l`, returning the remainder
when `l` starts with `p` (the hand-compiled form of a literal regex head
such as `#define`). -/
def stripPre : List Char → List Char → Option (List Char)
  | [], l => some l
  | _ :: _, [] => none
  | a :: p, b :: l => if a = b then stripPre p l else none

/-- Boolean list-prefix test, used for Python's `str.startswith`. -/
def isPrefixList : List Char → List Char → Bool
  | [], _ => true
  | _ :: _, [] => false
  | a :: p, b :: l => a = b && isPrefixList p l

/-- Boolean substring test, used for Python's `in` on strings. -/
def containsSub (n : List Char) : List Char → Bool
  | [] => isPrefixList n []
  | c :: t => isPrefixList n (c :: t) || containsSub n t

/-- Decimal digits of `n`, most significant first, with explicit fuel so the
definition reduces by `decide`; this is Python's `'{}'.format` on a
non-negative integer. -/
def natReprAux : Nat → Nat → List Char
  | 0, _ => []
  | fuel + 1, n =>
    if n < 10 then [Nat.digitChar n]
    else natReprAux fuel (n / 10) ++ [Nat.digitChar (n % 10)]

/-- Decimal notation of a natural number (`'{}'.format(n)`). -/
def natRepr (n : Nat) : List Char := natReprAux (n + 1) n

/-- Python's `int()` on a digit string: fold the decimal digits. -/
def parseNat (ds : List Char) : Nat :=
  ds.foldl (fun a c => 10 * a + (c.toNat - 48)) 0

/-- Python's `'{}'.format` on an `int` of either sign. -/
def pyIntRepr (v : Int) : List Char :=
  if v < 0 then '-' :: natRepr v.natAbs else natRepr v.toNat

/-- The placeholder identifier built by `mk_unique_name` for counter value
`v`: `__pQDBI_unused__` followed by `v` in decimal followed by `__`. -/
def mkNameOf (v : Int) : List Char :=
  "__pQDBI_unused__".data ++ pyIntRepr v ++ "__".data

/-- `mk_unique_name(line)`: increment the global `_name_counter` and format
the placeholder from the new value.  The `line` argument is accepted, as in
the source, and never used. -/
def mk_unique_name (counter : Int) (line : List Char) : List Char × Int :=
  (mkNameOf (counter + 1), counter + 1)

/-- Tail of `_bitfield_matcher` after the `:`: the sub-pattern
`\s*(\d+)\s*([;,])`, returning the digit group and the punctuation group.
All three steps are maximal-munch since the classes are disjoint. -/
def afterColon (cs : List Char) : Option (List Char × Char) :=
  let cs1 := cs.dropWhile isSpace
  let ds := cs1.takeWhile Char.isDigit
  let r := cs1.dropWhile Char.isDigit
  match ds with
  | [] => none
  | _ :: _ =>
    match r.dropWhile isSpace with
    | ';' :: _ => some (ds, ';')
    | ',' :: _ => some (ds, ',')
    | _ => none

/-- First-match-wins choice on the bitfield groups. -/
def orElseO (a b : Option (List Char × Char)) : Option (List Char × Char) :=
  match a with
  | some x => some x
  | none => b

/-- Backtracking search for the end of the optional comment group
`/\*.*?\*/\s*:` followed by `afterColon`: the engine tries each `*/`
occurrence left to right (lazy `.*?`), and `.` never crosses a newline. -/
def findCommentEnd : List Char → Option (List Char × Char)
  | [] => none
  | c :: rest =>
    if c = '\n' then none
    else if c = '*' then
      if rest.head? = some '/' then
        orElseO
          (match rest.tail.dropWhile isSpace with
           | ':' :: r => afterColon r
           | _ => none)
          (findCommentEnd rest)
      else findCommentEnd rest
    else findCommentEnd rest

/-- `_bitfield_matcher.match(line)`: the regex
`^\s+(?:/\*.*?\*/\s*)?:\s*(\d+)\s*([;,])` applied as a prefix match,
returning the two captured groups. -/
def bitfieldMatch (line : List Char) : Option (List Char × Char) :=
  let w := line.takeWhile isSpace
  let r := line.dropWhile isSpace
  match w with
  | [] => none
  | _ :: _ =>
    match r with
    | ':' :: rest => afterColon rest
    | '/' :: '*' :: rest => findCommentEnd rest
    | _ => none

/-- `patch_bitfield`: on a match, build `'{}: {}{}'` from the fresh
placeholder, `int(bitsize)` re-rendered in decimal, and the punctuation
group; otherwise return the line.  The counter is the explicit form of the
global `_name_counter`. -/
def patch_bitfield (counter : Int) (line : List Char) : List Char × Int :=
  match bitfieldMatch line with
  | some (ds, pc) =>
    let r := mk_unique_name counter line
    (r.1 ++ ':' :: ' ' :: (natRepr (parseNat ds) ++ [pc]), r.2)
  | none => (line, counter)

/-- Angle-bracket side of `_include_matcher`: the regex
`^#include\s+<(.*)?>\s*$`.  Greedy `.*` picks the last `>`; the match exists
exactly when the last non-space character is `>` and the captured text has
no newline (`.` does not match one). -/
def angleMatch (l : List Char) : Option (List Char) :=
  match stripPre "#include".data l with
  | none => none
  | some r0 =>
    let w1 := r0.takeWhile isSpace
    let r1 := r0.dropWhile isSpace
    if w1.isEmpty then none
    else if r1.head? = some '<' then
      let rev := r1.tail.reverse.dropWhile isSpace
      if rev.head? = some '>' then
        let x := rev.tail.reverse
        if '\n' ∈ x then none else some x
      else none
    else none

/-- `patch_includes`: comment out an angle include whose captured target is
non-empty (`if groups[1]:` is Python truthiness) and does not start with
`QBDI`; all other lines, including every quoted include, pass through. -/
def patch_includes (l : List Char) : List Char :=
  match angleMatch l with
  | some x =>
    match x with
    | [] => l
    | _ :: _ =>
      if isPrefixList "QBDI".data x then l else "//PATCH//".data ++ l
  | none => l

/-- `_define_matcher.match(line)`: the regex `^#define\s+(\S+)\s+(\d+)\s*$`,
returning the token and digit groups.  All steps are maximal-munch since
`\S`/`\s` and `\d`/`\s` are disjoint. -/
def defineMatch (l : List Char) : Option (List Char × List Char) :=
  match stripPre "#define".data l with
  | none => none
  | some r0 =>
    let w1 := r0.takeWhile isSpace
    let r1 := r0.dropWhile isSpace
    let nm := r1.takeWhile (fun c => !isSpace c)
    let r2 := r1.dropWhile (fun c => !isSpace c)
    let w2 := r2.takeWhile isSpace
    let r3 := r2.dropWhile isSpace
    let ds := r3.takeWhile Char.isDigit
    let r4 := r3.dropWhile Char.isDigit
    if w1.isEmpty then none
    else if nm.isEmpty then none
    else if w2.isEmpty then none
    else if ds.isEmpty then none
    else if r4.all isSpace then some (nm, ds)
    else none

/-- `patch_defines`: rewrite a matching line to `const int NAME = INTEGER;`
with both groups inserted verbatim. -/
def patch_defines (l : List Char) : List Char :=
  match defineMatch l with
  | some (nm, ds) => "const int ".data ++ nm ++ " = ".data ++ ds ++ [';']
  | none => l

/-- The fixed denylist `VARADIC_FUNCTIONS` (a Python set; membership order
is immaterial because every hit yields the same empty result). -/
def VARADIC_FUNCTIONS : List (List Char) :=
  ["qbdi_call".data, "qbdi_simulateCall".data]

/-- `patch_problematic`: delete a line containing `__compile_check`, a line
beginning `extern int qbdipreload_on_`, and a line containing any denylisted
variadic function name; otherwise pass it through. -/
def patch_problematic (line : List Char) : List Char :=
  if containsSub "__compile_check".data line then []
  else if isPrefixList "extern int qbdipreload_on_".data line then []
  else if VARADIC_FUNCTIONS.any (fun vf => containsSub vf line) then []
  else line

/-- Python `str.splitlines`, accumulator form: split at every terminator,
treating `"\r\n"` as one break, with no empty line after a final
terminator. -/
def splitlinesAux : Nat → List Char → List Char → List (List Char)
  | _, [], acc => if acc.isEmpty then [] else [acc.reverse]
  | 0, c :: rest, acc => [acc.reverse ++ c :: rest]
  | fuel + 1, c :: rest, acc =>
    if c = '\r' then
      match rest with
      | '\n' :: rest2 => acc.reverse :: splitlinesAux fuel rest2 []
      | _ => acc.reverse :: splitlinesAux fuel rest []
    else if isLineBreak c then acc.reverse :: splitlinesAux fuel rest []
    else splitlinesAux fuel rest (c :: acc)

/-- Python `str.splitlines`; the fuel (one unit per consumed character) is
the input length, so the zero-fuel filler arm is never reached. -/
def splitlines (cs : List Char) : List (List Char) := splitlinesAux cs.length cs []

/-- Python `'\n'.join`. -/
def joinLines : List (List Char) → List Char
  | [] => []
  | [l] => l
  | l :: ls => l ++ '\n' :: joinLines ls

/-- Map a counter-threading patcher over a list of lines, left to right. -/
def mapCounter (f : Int → List Char → List Char × Int) :
    Int → List (List Char) → List (List Char) × Int
  | c, [] => ([], c)
  | c, l :: ls =>
    let r := f c l
    let rs := mapCounter f r.2 ls
    (r.1 :: rs.1, rs.2)

/-- `patch_string` for a stateful patcher: split into lines, patch each,
rejoin with `'\n'`. -/
def patch_string_st (f : Int → List Char → List Char × Int) (c : Int)
    (code : List Char) : List Char × Int :=
  let r := mapCounter f c (splitlines code)
  (joinLines r.1, r.2)

/-- `patch_string` for a stateless patcher. -/
def patch_string (f : List Char → List Char) (code : List Char) : List Char :=
  joinLines ((splitlines code).map f)

/-- Head of `patch_arithmetic_expressions`' first rewrite: parse
`(\d+)\*(\d+)\]` after a `[`, returning both digit groups and the rest. -/
def mulMatch (cs : List Char) : Option (List Char × List Char × List Char) :=
  let d1 := cs.takeWhile Char.isDigit
  let r1 := cs.dropWhile Char.isDigit
  if d1.isEmpty then none
  else if r1.head? = some '*' then
    let d2 := r1.tail.takeWhile Char.isDigit
    let r3 := r1.tail.dropWhile Char.isDigit
    if d2.isEmpty then none
    else if r3.head? = some ']' then some (d1, d2, r3.tail)
    else none
  else none

/-- Head of the second rewrite: parse `\s*(\d+)<<(\d+)` after a `=`. -/
def shiftMatch (cs : List Char) : Option (List Char × List Char × List Char) :=
  let cs1 := cs.dropWhile isSpace
  let d1 := cs1.takeWhile Char.isDigit
  let r1 := cs1.dropWhile Char.isDigit
  if d1.isEmpty then none
  else if r1.head? = some '<' ∧ r1.tail.head? = some '<' then
    let d2 := r1.tail.tail.takeWhile Char.isDigit
    let r3 := r1.tail.tail.dropWhile Char.isDigit
    if d2.isEmpty then none
    else some (d1, d2, r3)
  else none

/-- `re.sub(r'\[(\d+)\*(\d+)\]', ...)`: scan left to right, replacing each
match by the bracketed decimal product and continuing after it.  Fuel keeps
the recursion structural; `subMul` supplies enough fuel. -/
def subMulAux : Nat → List Char → List Char
  | _, [] => []
  | 0, c :: rest => c :: rest
  | fuel + 1, c :: rest =>
    if c = '[' then
      match mulMatch rest with
      | some (d1, d2, r) =>
        '[' :: (natRepr (parseNat d1 * parseNat d2) ++ ']' :: subMulAux fuel r)
      | none => '[' :: subMulAux fuel rest
    else c :: subMulAux fuel rest

/-- First rewrite of `patch_arithmetic_expressions`. -/
def subMul (cs : List Char) : List Char := subMulAux cs.length cs

/-- `re.sub(r'=\s*(\d+)<<(\d+)', ...)`: each match is replaced by `'= '`
followed by the decimal left-shifted value. -/
def subShiftAux : Nat → List Char → List Char
  | _, [] => []
  | 0, c :: rest => c :: rest
  | fuel + 1, c :: rest =>
    if c = '=' then
      match shiftMatch rest with
      | some (d1, d2, r) =>
        '=' :: ' ' :: (natRepr (parseNat d1 <<< parseNat d2) ++ subShiftAux fuel r)
      | none => '=' :: subShiftAux fuel rest
    else c :: subShiftAux fuel rest

/-- Second rewrite of `patch_arithmetic_expressions`. -/
def subShift (cs : List Char) : List Char := subShiftAux cs.length cs

/-- `patch_arithmetic_expressions`: the product rewrite over the whole text,
then the shift rewrite over its output. -/
def patch_arithmetic_expressions (code : List Char) : List Char :=
  subShift (subMul code)

/-- Observable outcome of `Builder.preprocess_header`: either the build
process exits with a code (after printing the listed diagnostics), or the
captured stdout is written back to the file. -/
inductive PreprocOutcome where
  | exited : Int → List (List Char) → PreprocOutcome
  | wrote : List Char → List (List Char) → PreprocOutcome
deriving DecidableEq

/-- `Builder.preprocess_header` over the external process's observables:
`if err:` print the diagnostics and, only inside that branch, `exit` when
the return code is non-zero; otherwise write stdout back. -/
def preprocess_header (stdout stderr : List Char) (returncode : Int) :
    PreprocOutcome :=
  if stderr ≠ [] then
    if returncode ≠ 0 then .exited returncode [stderr]
    else .wrote stdout [stderr]
  else .wrote stdout []

/-- `Builder.fix_headers`: for each file, set the global counter back to
`-1`, then run the bitfield pass over the file. -/
def fix_headers (c : Int) (files : List (List Char)) :
    List (List Char) × Int :=
  match files with
  | [] => ([], c)
  | f :: fs =>
    let r := patch_string_st patch_bitfield (-1) f
    let rs := fix_headers r.2 fs
    (r.1 :: rs.1, rs.2)

/-- `Builder.patch_main` with the external preprocessor abstracted as the
function `pp`: prepend the attribute shim, patch includes, patch defines,
preprocess, reset the counter, patch bitfields, filter problematic lines,
fold arithmetic.  The incoming counter state is the global `_name_counter`
value left over from earlier passes. -/
def patch_main (pp : List Char → List Char) (c : Int) (content : List Char) :
    List Char × Int :=
  let t0 := "#define __attribute__(x)\n".data ++ content
  let t1 := patch_string patch_includes t0
  let t2 := patch_string patch_defines t1
  let t3 := pp t2
  let r4 := patch_string_st patch_bitfield (-1) t3
  let t5 := patch_string patch_problematic r4.1
  let t6 := patch_arithmetic_expressions t5
  (t6, r4.2)

/-- `Builder.build_all`'s transformation pipeline: staging copies the header
tree into the clean root (plus the preload header) and the staged root, and
the preload header becomes the aggregate entry point; then the bitfield pass
runs over the clean root, the include pass plus the bitfield pass over the
staged root, and `patch_main` over the entry point.  `pp` is the external
preprocessor, `c` the incoming global counter state. -/
def build_all_model (pp : List Char → List Char) (c : Int)
    (tree : List (List Char)) (preloadh : List Char) :
    (List (List Char) × List (List Char) × List Char) × Int :=
  let clean := tree ++ [preloadh]
  let staged := tree
  let mainh := preloadh
  let r1 := fix_headers c clean
  let staged1 := staged.map (patch_string patch_includes)
  let r2 := fix_headers r1.2 staged1
  let r3 := patch_main pp r2.2 mainh
  ((r1.1, r2.1, r3.1), r3.2)

/-- One `reset`–`next*` scope of the name generator: starting from counter
`c`, perform `k` calls of `mk_unique_name`, feeding call `i` the line
`lines i`, and collect the generated names. -/
def runCallsOn (lines : Nat → List Char) (c : Int) :
    Nat → List (List Char) × Int
  | 0 => ([], c)
  | k + 1 =>
    let r := mk_unique_name c (lines 0)
    let rs := runCallsOn (fun i => lines (i + 1)) r.2 k
    (r.1 :: rs.1, rs.2)

/-!  Declarative shapes of the regex languages, used to characterise
the hand-compiled matchers in the claims below. -/

/-- A line of the exact shape `#define`, one or more spaces, one
whitespace-free token, one or more spaces, one or more decimal digits, and
trailing whitespace only — the language of `^#define\s+(\S+)\s+(\d+)\s*$`
with its two capture groups. -/
def DefineShape (l nm ds : List Char) : Prop :=
  ∃ w1 w2 w3 : List Char,
    l = "#define".data ++ (w1 ++ (nm ++ (w2 ++ (ds ++ w3)))) ∧
    w1 ≠ [] ∧ (∀ c ∈ w1, isSpace c = true) ∧
    nm ≠ [] ∧ (∀ c ∈ nm, isSpace c = false) ∧
    w2 ≠ [] ∧ (∀ c ∈ w2, isSpace c = true) ∧
    ds ≠ [] ∧ (∀ c ∈ ds, c.isDigit = true) ∧
    (∀ c ∈ w3, isSpace c = true)

/-- A line of the exact shape `#include`, one or more spaces, `<`, the
captured target `x` (any newline-free text, possibly empty, possibly
containing `>`), the final `>`, and trailing whitespace only — the language
of the angle alternative of `^#include\s+(?:"(.*)"|<(.*)?>)\s*$` with its
capture group (greedy `.*` selects the last `>`, so the `>` shown is the
last non-whitespace character of the line). -/
def AngleShape (l x : List Char) : Prop :=
  ∃ w1 w2 : List Char,
    l = "#include".data ++ (w1 ++ '<' :: (x ++ '>' :: w2)) ∧
    w1 ≠ [] ∧ (∀ c ∈ w1, isSpace c = true) ∧
    (∀ c ∈ w2, isSpace c = true) ∧ '\n' ∉ x

/-- The `\s*(\d+)\s*([;,])` tail of the bitfield pattern, with the two
capture groups; the rest of the line after the punctuation (`t`) is
unconstrained, as `re.match` only anchors the start. -/
def AfterColonShape (rest ds : List Char) (p : Char) : Prop :=
  ∃ w1 w2 t : List Char,
    rest = w1 ++ (ds ++ (w2 ++ p :: t)) ∧
    (∀ c ∈ w1, isSpace c = true) ∧ ds ≠ [] ∧ (∀ c ∈ ds, c.isDigit = true) ∧
    (∀ c ∈ w2, isSpace c = true) ∧ (p = ';' ∨ p = ',')

/-- The text consumed by the optional comment group followed by `:` and a
successful tail: some `*/` occurrence, preceded by newline-free text
(the lazy `.*?`), followed by whitespace, `:`, and a matching tail. -/
def CommentSplit (cs : List Char) : Prop :=
  ∃ x w2 rest : List Char,
    cs = x ++ '*' :: '/' :: (w2 ++ ':' :: rest) ∧
    '\n' ∉ x ∧ (∀ c ∈ w2, isSpace c = true) ∧ (afterColon rest).isSome = true

/-- A line matching the anonymous-bitfield pattern
`^\s+(?:/\*.*?\*/\s*)?:\s*(\d+)\s*([;,])`: required leading whitespace, an
optional `/* … */` comment followed by whitespace, then `:`, and a tail
with some digit group and punctuation group. -/
def BitfieldShape (l : List Char) : Prop :=
  ∃ w mid rest : List Char, ∃ ds : List Char, ∃ p : Char,
    l = w ++ (mid ++ ':' :: rest) ∧ w ≠ [] ∧ (∀ c ∈ w, isSpace c = true) ∧
    (mid = [] ∨ ∃ x w2 : List Char,
      mid = '/' :: '*' :: (x ++ '*' :: '/' :: w2) ∧ '\n' ∉ x ∧
      (∀ c ∈ w2, isSpace c = true)) ∧
    AfterColonShape rest ds p

/-!  Generic helper lemmas about the scanning primitives. -/

theorem mem_takeWhileP (p : Char → Bool) :
    ∀ (l : List Char), ∀ c ∈ l.takeWhile p, p c = true
  | [] => by simp
  | x :: xs => by
    by_cases hx : p x
    · intro c hc
      rw [List.takeWhile_cons_of_pos hx] at hc
      rcases List.mem_cons.1 hc with rfl | hc
      · exact hx
      · exact mem_takeWhileP p xs c hc
    · intro c hc
      rw [List.takeWhile_cons_of_neg hx] at hc
      cases hc

theorem takeDrop_append (p : Char → Bool) :
    ∀ (xs ys : List Char), (∀ c ∈ xs, p c = true) →
      (∀ h, ys.head? = some h → p h = false) →
      (xs ++ ys).takeWhile p = xs ∧ (xs ++ ys).dropWhile p = ys
  | [], ys, _, hy => by
    cases ys with
    | nil => simp
    | cons y ys' =>
      have hpy : p y = false := hy y rfl
      simp [List.takeWhile_cons, List.dropWhile_cons, hpy]
  | x :: xs, ys, hx, hy => by
    have hpx : p x = true := hx x (List.mem_cons_self x xs)
    have ih := takeDrop_append p xs ys (fun c hc => hx c (List.mem_cons_of_mem x hc)) hy
    simp [List.takeWhile_cons, List.dropWhile_cons, hpx, ih.1, ih.2]

theorem head_dropWhileP (p : Char → Bool) :
    ∀ (l : List Char) (h : Char), (l.dropWhile p).head? = some h → p h = false
  | [], h => by simp
  | x :: xs, h => by
    by_cases hx : p x
    · rw [List.dropWhile_cons_of_pos hx]
      exact head_dropWhileP p xs h
    · rw [List.dropWhile_cons_of_neg hx]
      intro hh
      cases hh
      simpa using hx

theorem stripPre_eq_some : ∀ (p l r : List Char), stripPre p l = some r ↔ l = p ++ r
  | [], l, r => by simp [stripPre, eq_comm]
  | _ :: _, [], _ => by simp [stripPre]
  | a :: p, b :: l, r => by
    simp only [stripPre]
    by_cases h : a = b
    · subst h
      rw [if_pos rfl, stripPre_eq_some p l r]
      simp
    · rw [if_neg h]
      constructor
      · intro hc; cases hc
      · intro hc
        injection hc with h1 _
        exact absurd h1.symm h

theorem isPrefixList_iff : ∀ (p l : List Char), isPrefixList p l = true ↔ p <+: l
  | [], l => by simp [isPrefixList, List.nil_prefix]
  | _ :: _, [] => by
    simp only [isPrefixList, Bool.false_eq_true, false_iff]
    intro h
    simpa using h.length_le
  | a :: p, b :: l => by
    simp only [isPrefixList, Bool.and_eq_true, decide_eq_true_eq, isPrefixList_iff p l,
      List.cons_prefix_cons]

theorem containsSub_iff (n : List Char) : ∀ (l : List Char),
    containsSub n l = true ↔ n <:+: l
  | [] => by
    simp [containsSub, isPrefixList_iff, List.prefix_nil, List.infix_nil]
  | c :: t => by
    simp [containsSub, Bool.or_eq_true, isPrefixList_iff, containsSub_iff n t,
      List.infix_cons_iff]

/-!  Character-class facts. -/

theorem space_not_digit (c : Char) (h : isSpace c = true) : c.isDigit = false := by
  simp only [isSpace, Bool.or_eq_true, decide_eq_true_eq] at h
  rcases h with ((((h | h) | h) | h) | h) | h <;> subst h <;> decide

theorem digit_not_space (c : Char) (h : c.isDigit = true) : isSpace c = false := by
  cases hs : isSpace c
  · rfl
  · rw [space_not_digit c hs] at h
    cases h

theorem digitChar_ge (n : Nat) (h : 16 ≤ n) : Nat.digitChar n = '*' := by
  unfold Nat.digitChar
  repeat rw [if_neg (by omega)]

theorem digitChar_not_break (n : Nat) : isLineBreak (Nat.digitChar n) = false := by
  by_cases h : n < 16
  · interval_cases n <;> decide
  · rw [digitChar_ge n (by omega)]
    decide

theorem digitChar_toNat (n : Nat) (h : n < 10) : (Nat.digitChar n).toNat = 48 + n := by
  interval_cases n <;> decide

theorem digitChar_isDigit (n : Nat) (h : n < 10) : (Nat.digitChar n).isDigit = true := by
  interval_cases n <;> decide

/-!  Decimal printing: round trip, injectivity, character facts. -/

theorem parseNat_append_digit (xs : List Char) (c : Char) :
    parseNat (xs ++ [c]) = 10 * parseNat xs + (c.toNat - 48) := by
  simp [parseNat, List.foldl_append]

theorem parseNat_natReprAux : ∀ (fuel n : Nat), n < fuel →
    parseNat (natReprAux fuel n) = n
  | 0, n, h => absurd h (Nat.not_lt_zero n)
  | fuel + 1, n, _ => by
    unfold natReprAux
    by_cases h10 : n < 10
    · rw [if_pos h10]
      simp [parseNat, digitChar_toNat n h10]
    · rw [if_neg h10, parseNat_append_digit]
      have hdiv : n / 10 < fuel := by
        have := Nat.div_lt_self (by omega : 0 < n) (by omega : 1 < 10)
        omega
      rw [parseNat_natReprAux fuel (n / 10) hdiv,
        digitChar_toNat (n % 10) (Nat.mod_lt n (by omega))]
      omega

theorem parseNat_natRepr (n : Nat) : parseNat (natRepr n) = n :=
  parseNat_natReprAux (n + 1) n (Nat.lt_succ_self n)

theorem natRepr_inj {a b : Nat} (h : natRepr a = natRepr b) : a = b := by
  have h2 := congrArg parseNat h
  rwa [parseNat_natRepr, parseNat_natRepr] at h2

theorem natReprAux_digits : ∀ (fuel n : Nat), ∀ c ∈ natReprAux fuel n, c.isDigit = true
  | 0, _ => by simp [natReprAux]
  | fuel + 1, n => by
    unfold natReprAux
    by_cases h10 : n < 10
    · rw [if_pos h10]
      intro c hc
      rcases List.mem_singleton.1 hc with rfl
      exact digitChar_isDigit n h10
    · rw [if_neg h10]
      intro c hc
      rcases List.mem_append.1 hc with hc | hc
      · exact natReprAux_digits fuel (n / 10) c hc
      · rcases List.mem_singleton.1 hc with rfl
        exact digitChar_isDigit (n % 10) (Nat.mod_lt n (by omega))

theorem natRepr_digits (n : Nat) : ∀ c ∈ natRepr n, c.isDigit = true :=
  natReprAux_digits (n + 1) n

theorem pyIntRepr_nonneg (v : Int) (h : 0 ≤ v) : pyIntRepr v = natRepr v.toNat := by
  simp [pyIntRepr, not_lt.mpr h]

theorem mkNameOf_inj {a b : Int} (ha : 0 ≤ a) (hb : 0 ≤ b)
    (h : mkNameOf a = mkNameOf b) : a = b := by
  unfold mkNameOf at h
  rw [pyIntRepr_nonneg a ha, pyIntRepr_nonneg b hb, List.append_assoc,
    List.append_assoc] at h
  have h1 := List.append_cancel_left h
  have h2 := List.append_cancel_right h1
  have h3 := natRepr_inj h2
  omega

/-!  The name generator under one `reset`–`next*` scope. -/

theorem runCallsOn_spec : ∀ (k : Nat) (lines : Nat → List Char) (c : Int),
    (runCallsOn lines c k).1 = (List.range k).map (fun i : Nat => mkNameOf (c + 1 + (i : Int))) ∧
    (runCallsOn lines c k).2 = c + k
  | 0, lines, c => by simp [runCallsOn]
  | k + 1, lines, c => by
    have ih := runCallsOn_spec k (fun i => lines (i + 1)) (c + 1)
    unfold runCallsOn
    simp only [mk_unique_name]
    constructor
    · rw [ih.1, List.range_succ_eq_map, List.map_cons, List.map_map]
      refine congrArg₂ List.cons ?_ ?_
      · norm_num
      · apply List.map_congr_left
        intro i _
        simp only [Function.comp_apply]
        congr 1
        push_cast
        ring
    · rw [ih.2]
      push_cast
      ring

theorem runCallsOn_names (k : Nat) (lines : Nat → List Char) :
    (runCallsOn lines (-1) k).1 = (List.range k).map (fun i : Nat => mkNameOf (i : Int)) := by
  rw [(runCallsOn_spec k lines (-1)).1]
  apply List.map_congr_left
  intro i _
  congr 1
  push_cast
  ring

theorem runCallsOn_nodup (k : Nat) (lines : Nat → List Char) :
    List.Pairwise (fun a b => a ≠ b) (runCallsOn lines (-1) k).1 := by
  rw [runCallsOn_names]
  refine List.Nodup.map ?_ (List.nodup_range k)
  intro a b hab
  have := mkNameOf_inj (Int.natCast_nonneg a) (Int.natCast_nonneg b) hab
  exact_mod_cast this

theorem runCallsOn_get (k i : Nat) (h : i < k) (lines : Nat → List Char) :
    (runCallsOn lines (-1) k).1[i]? =
      some ("__pQDBI_unused__".data ++ natRepr i ++ "__".data) := by
  rw [runCallsOn_names, List.getElem?_map, List.getElem?_range h]
  simp [mkNameOf, pyIntRepr_nonneg _ (Int.natCast_nonneg i)]

/-!  Unfolding lemmas for the line splitter. -/

theorem splitlinesAux_nonbreak (f : Nat) (c : Char) (hc : isLineBreak c = false)
    (rest acc : List Char) :
    splitlinesAux (f + 1) (c :: rest) acc = splitlinesAux f rest (c :: acc) := by
  have hcr : c ≠ '\r' := by
    rintro rfl
    simp [isLineBreak] at hc
  by_cases hr : ∃ r2, rest = '\n' :: r2
  · obtain ⟨r2, rfl⟩ := hr
    rw [splitlinesAux.eq_3, if_neg hcr, if_neg (by simp [hc])]
  · rw [splitlinesAux.eq_4 _ _ _ _ (fun r2 h => hr ⟨r2, h⟩), if_neg hcr,
      if_neg (by simp [hc])]

theorem splitlinesAux_break (f : Nat) (c : Char) (hc : isLineBreak c = true)
    (hcr : c ≠ '\r') (rest acc : List Char) :
    splitlinesAux (f + 1) (c :: rest) acc = acc.reverse :: splitlinesAux f rest [] := by
  by_cases hr : ∃ r2, rest = '\n' :: r2
  · obtain ⟨r2, rfl⟩ := hr
    rw [splitlinesAux.eq_3, if_neg hcr, if_pos hc]
  · rw [splitlinesAux.eq_4 _ _ _ _ (fun r2 h => hr ⟨r2, h⟩), if_neg hcr, if_pos hc]

theorem splitlinesAux_crlf (f : Nat) (rest acc : List Char) :
    splitlinesAux (f + 1) ('\r' :: '\n' :: rest) acc =
      acc.reverse :: splitlinesAux f rest [] := by
  rw [splitlinesAux.eq_3, if_pos rfl]

theorem splitlinesAux_cr (f : Nat) (rest acc : List Char)
    (h : ∀ r2, rest ≠ '\n' :: r2) :
    splitlinesAux (f + 1) ('\r' :: rest) acc = acc.reverse :: splitlinesAux f rest [] := by
  rw [splitlinesAux.eq_4 _ _ _ _ (fun r2 hr => h r2 hr), if_pos rfl]

/-- Every line produced by the splitter is free of terminator characters. -/
theorem splitlinesAux_clean : ∀ (f : Nat) (cs acc : List Char), cs.length ≤ f →
    (∀ c ∈ acc, isLineBreak c = false) →
    ∀ l ∈ splitlinesAux f cs acc, ∀ c ∈ l, isLineBreak c = false
  | f, [], acc, _, hacc => by
    rw [splitlinesAux.eq_1]
    split
    · simp
    · intro l hl
      rcases List.mem_singleton.1 hl with rfl
      intro c hc
      exact hacc c (List.mem_reverse.1 hc)
  | f + 1, c :: rest, acc, hf, hacc => by
    have hrest : rest.length ≤ f := by simpa using hf
    by_cases hc : isLineBreak c
    · by_cases hcr : c = '\r'
      · subst hcr
        by_cases hr : ∃ r2, rest = '\n' :: r2
        · obtain ⟨r2, rfl⟩ := hr
          rw [splitlinesAux_crlf]
          intro l hl
          rcases List.mem_cons.1 hl with rfl | hl
          · intro ch hch
            exact hacc ch (List.mem_reverse.1 hch)
          · exact splitlinesAux_clean f r2 [] (by simp at hrest; omega) (by simp) l hl
        · rw [splitlinesAux_cr f rest acc (fun r2 h2 => hr ⟨r2, h2⟩)]
          intro l hl
          rcases List.mem_cons.1 hl with rfl | hl
          · intro ch hch
            exact hacc ch (List.mem_reverse.1 hch)
          · exact splitlinesAux_clean f rest [] hrest (by simp) l hl
      · rw [splitlinesAux_break f c hc hcr]
        intro l hl
        rcases List.mem_cons.1 hl with rfl | hl
        · intro ch hch
          exact hacc ch (List.mem_reverse.1 hch)
        · exact splitlinesAux_clean f rest [] hrest (by simp) l hl
    · rw [splitlinesAux_nonbreak f c (by simpa using hc)]
      refine splitlinesAux_clean f rest (c :: acc) hrest ?_
      intro ch hch
      rcases List.mem_cons.1 hch with rfl | hch
      · simpa using hc
      · exact hacc ch hch

theorem splitlines_clean (t : List Char) :
    ∀ l ∈ splitlines t, ∀ c ∈ l, isLineBreak c = false :=
  splitlinesAux_clean t.length t [] le_rfl (by simp)

/-- Consuming a terminator-free chunk accumulates it onto the current
line. -/
theorem splitlinesAux_chunk : ∀ (l : List Char), (∀ c ∈ l, isLineBreak c = false) →
    ∀ (f : Nat) (suffix acc : List Char),
      splitlinesAux (l.length + f) (l ++ suffix) acc =
        splitlinesAux f suffix (l.reverse ++ acc)
  | [], _, f, suffix, acc => by simp
  | c :: l, hl, f, suffix, acc => by
    have hc : isLineBreak c = false := hl c (List.mem_cons_self c l)
    have hl' : ∀ ch ∈ l, isLineBreak ch = false := fun ch hch =>
      hl ch (List.mem_cons_of_mem c hch)
    have : (c :: l).length + f = (l.length + f) + 1 := by simp; omega
    rw [this, List.cons_append, splitlinesAux_nonbreak _ c hc,
      splitlinesAux_chunk l hl' f suffix (c :: acc)]
    simp

/-- Splitting a terminator-free line alone. -/
theorem splitlines_clean_single (l : List Char) (hl : ∀ c ∈ l, isLineBreak c = false) :
    splitlines l = if l.isEmpty then [] else [l] := by
  have h2 : splitlines l = splitlinesAux (l.length + 0) (l ++ []) [] := by
    unfold splitlines
    simp
  rw [h2, splitlinesAux_chunk l hl 0 [] [], splitlinesAux.eq_1]
  cases l with
  | nil => simp
  | cons c l => simp

/-- Splitting after a terminator-free line followed by a newline peels off
that line. -/
theorem splitlines_cons_line (l rest : List Char)
    (hl : ∀ c ∈ l, isLineBreak c = false) :
    splitlines (l ++ '\n' :: rest) = l :: splitlines rest := by
  unfold splitlines
  have hlen : (l ++ '\n' :: rest).length = l.length + (rest.length + 1) := by
    simp
  rw [hlen, splitlinesAux_chunk l hl (rest.length + 1) ('\n' :: rest) [],
    splitlinesAux_break rest.length '\n' (by decide) (by decide)]
  simp

/-- Every line recovered from a join of terminator-free lines is one of the
joined lines. -/
theorem splitlines_join_mem : ∀ (ls : List (List Char)),
    (∀ l ∈ ls, ∀ c ∈ l, isLineBreak c = false) →
    ∀ x ∈ splitlines (joinLines ls), x ∈ ls
  | [], _, x, hx => by simp [joinLines, splitlines, splitlinesAux] at hx
  | [l], hls, x, hx => by
    rw [joinLines, splitlines_clean_single l (hls l (by simp))] at hx
    split at hx
    · cases hx
    · rcases List.mem_singleton.1 hx with rfl
      simp
  | l :: l' :: ls, hls, x, hx => by
    have hjoin : joinLines (l :: l' :: ls) = l ++ '\n' :: joinLines (l' :: ls) := rfl
    rw [hjoin, splitlines_cons_line l _ (hls l (by simp))] at hx
    rcases List.mem_cons.1 hx with rfl | hx
    · simp
    · have := splitlines_join_mem (l' :: ls)
        (fun a ha c hc => hls a (List.mem_cons_of_mem l ha) c hc) x hx
      exact List.mem_cons_of_mem l this

/-!  Facts about the lines the bitfield pass produces. -/

theorem bitfieldMatch_cons_nonspace (c : Char) (hc : isSpace c = false)
    (rest : List Char) : bitfieldMatch (c :: rest) = none := by
  unfold bitfieldMatch
  simp only [List.takeWhile_cons_of_neg (show ¬ isSpace c = true by simp [hc])]

theorem patched_line_no_match (v : Int) (x : List Char) :
    bitfieldMatch (mkNameOf v ++ x) = none := by
  have h : mkNameOf v ++ x =
      '_' :: ("_pQDBI_unused__".data ++ pyIntRepr v ++ "__".data ++ x) := by
    have h2 : "__pQDBI_unused__".data = '_' :: "_pQDBI_unused__".data := by decide
    simp [mkNameOf, h2]
  rw [h]
  exact bitfieldMatch_cons_nonspace '_' (by decide) _

theorem break_not_digit (c : Char) (h : isLineBreak c = true) : c.isDigit = false := by
  simp only [isLineBreak, Bool.or_eq_true, decide_eq_true_eq] at h
  rcases h with ((((((((h | h) | h) | h) | h) | h) | h) | h) | h) | h <;>
    subst h <;> decide

theorem digit_not_break (c : Char) (h : c.isDigit = true) : isLineBreak c = false := by
  cases hb : isLineBreak c
  · rfl
  · rw [break_not_digit c hb] at h
    cases h

theorem natRepr_clean (n : Nat) : ∀ c ∈ natRepr n, isLineBreak c = false :=
  fun c hc => digit_not_break c (natRepr_digits n c hc)

theorem pyIntRepr_clean (v : Int) : ∀ c ∈ pyIntRepr v, isLineBreak c = false := by
  intro c hc
  unfold pyIntRepr at hc
  split at hc
  · rcases List.mem_cons.1 hc with rfl | hc
    · decide
    · exact digit_not_break c (natReprAux_digits _ _ c hc)
  · exact digit_not_break c (natReprAux_digits _ _ c hc)

theorem patched_line_clean (v : Int) (n : Nat) (p : Char)
    (hp : isLineBreak p = false) :
    ∀ c ∈ mkNameOf v ++ ':' :: ' ' :: (natRepr n ++ [p]), isLineBreak c = false := by
  have hlit1 : ∀ c ∈ "__pQDBI_unused__".data, isLineBreak c = false := by decide
  have hlit2 : ∀ c ∈ "__".data, isLineBreak c = false := by decide
  intro c hc
  rcases List.mem_append.1 hc with h1 | h1
  · rcases List.mem_append.1 h1 with h2 | h2
    · rcases List.mem_append.1 h2 with h3 | h3
      · exact hlit1 c h3
      · exact pyIntRepr_clean v c h3
    · exact hlit2 c h2
  · rcases List.mem_cons.1 h1 with rfl | h2
    · decide
    · rcases List.mem_cons.1 h2 with rfl | h3
      · decide
      · rcases List.mem_append.1 h3 with h4 | h4
        · exact natRepr_clean n c h4
        · rcases List.mem_singleton.1 h4 with rfl
          exact hp

theorem afterColon_punct (r ds : List Char) (p : Char)
    (h : afterColon r = some (ds, p)) : p = ';' ∨ p = ',' := by
  unfold afterColon at h
  dsimp only at h
  split at h
  · cases h
  · split at h
    · injection h with h2
      injection h2 with _ h3
      exact Or.inl h3.symm
    · injection h with h2
      injection h2 with _ h3
      exact Or.inr h3.symm
    · cases h

theorem findCommentEnd_punct : ∀ (cs ds : List Char) (p : Char),
    findCommentEnd cs = some (ds, p) → p = ';' ∨ p = ','
  | [], ds, p => by intro h; cases h
  | c :: rest, ds, p => by
    intro h
    rw [findCommentEnd.eq_def] at h
    dsimp only at h
    split at h
    · cases h
    · split at h
      · split at h
        · unfold orElseO at h
          split at h
          · rename_i y hy
            injection h with h2
            subst h2
            split at hy
            · exact afterColon_punct _ _ _ hy
            · cases hy
          · exact findCommentEnd_punct rest ds p h
        · exact findCommentEnd_punct rest ds p h
      · exact findCommentEnd_punct rest ds p h

theorem bitfieldMatch_punct (l ds : List Char) (p : Char)
    (h : bitfieldMatch l = some (ds, p)) : p = ';' ∨ p = ',' := by
  unfold bitfieldMatch at h
  dsimp only at h
  split at h
  · cases h
  · split at h
    · exact afterColon_punct _ _ _ h
    · exact findCommentEnd_punct _ _ _ h
    · cases h

/-- Each output line of the bitfield pass is terminator-free and no longer
matches the anonymous-bitfield pattern. -/
theorem mapCounter_bitfield_lines : ∀ (ls : List (List Char)) (c : Int),
    (∀ l ∈ ls, ∀ ch ∈ l, isLineBreak ch = false) →
    ∀ x ∈ (mapCounter patch_bitfield c ls).1,
      (∀ ch ∈ x, isLineBreak ch = false) ∧ bitfieldMatch x = none
  | [], c, _ => by simp [mapCounter]
  | l :: ls, c, hls => by
    intro x hx
    have hl : ∀ ch ∈ l, isLineBreak ch = false := hls l (List.mem_cons_self l ls)
    have hls' : ∀ a ∈ ls, ∀ ch ∈ a, isLineBreak ch = false := fun a ha =>
      hls a (List.mem_cons_of_mem l ha)
    rw [mapCounter] at hx
    cases hb : bitfieldMatch l with
    | some g =>
      obtain ⟨ds, pc⟩ := g
      have hpatch : patch_bitfield c l =
          (mkNameOf (c + 1) ++ ':' :: ' ' :: (natRepr (parseNat ds) ++ [pc]), c + 1) := by
        rw [patch_bitfield, hb]
        rfl
      rw [hpatch] at hx
      rcases List.mem_cons.1 hx with rfl | hx
      · have hpc : isLineBreak pc = false := by
          rcases bitfieldMatch_punct l ds pc hb with rfl | rfl <;> decide
        exact ⟨patched_line_clean (c + 1) (parseNat ds) pc hpc,
          patched_line_no_match (c + 1) _⟩
      · exact mapCounter_bitfield_lines ls (c + 1) hls' x hx
    | none =>
      have hpatch : patch_bitfield c l = (l, c) := by
        rw [patch_bitfield, hb]
      rw [hpatch] at hx
      rcases List.mem_cons.1 hx with rfl | hx
      · exact ⟨hl, hb⟩
      · exact mapCounter_bitfield_lines ls c hls' x hx

/-- A list of lines none of which matches passes through unchanged with the
counter untouched. -/
theorem mapCounter_bitfield_id : ∀ (ls : List (List Char)) (c : Int),
    (∀ l ∈ ls, bitfieldMatch l = none) →
    mapCounter patch_bitfield c ls = (ls, c)
  | [], c, _ => by simp [mapCounter]
  | l :: ls, c, hls => by
    have hl : bitfieldMatch l = none := hls l (List.mem_cons_self l ls)
    have hpatch : patch_bitfield c l = (l, c) := by
      rw [patch_bitfield, hl]
    rw [mapCounter, hpatch,
      mapCounter_bitfield_id ls c (fun a ha => hls a (List.mem_cons_of_mem l ha))]

/-!  Arithmetic-fold computation lemmas. -/

theorem takeWhile_all_of (p : Char → Bool) :
    ∀ (l : List Char), (∀ c ∈ l, p c = true) →
      l.takeWhile p = l ∧ l.dropWhile p = []
  | [], _ => by simp
  | c :: l, h => by
    have hc : p c = true := h c (List.mem_cons_self c l)
    have ih := takeWhile_all_of p l (fun a ha => h a (List.mem_cons_of_mem c ha))
    simp [List.takeWhile_cons, List.dropWhile_cons, hc, ih.1, ih.2]

theorem mulMatch_exact (d1 d2 tl : List Char) (h1 : d1 ≠ []) (h2 : d2 ≠ [])
    (hd1 : ∀ c ∈ d1, c.isDigit = true) (hd2 : ∀ c ∈ d2, c.isDigit = true) :
    mulMatch (d1 ++ '*' :: (d2 ++ ']' :: tl)) = some (d1, d2, tl) := by
  have t1 := takeDrop_append Char.isDigit d1 ('*' :: (d2 ++ ']' :: tl)) hd1
    (by intro h hh; injection hh with hh1; subst hh1; decide)
  have t2 := takeDrop_append Char.isDigit d2 (']' :: tl) hd2
    (by intro h hh; injection hh with hh1; subst hh1; decide)
  unfold mulMatch
  dsimp only
  rw [t1.1, t1.2]
  cases d1 with
  | nil => exact absurd rfl h1
  | cons a d1' =>
    rw [if_neg (by simp), if_pos (by simp), List.tail_cons, t2.1, t2.2]
    cases d2 with
    | nil => exact absurd rfl h2
    | cons b d2' =>
      rw [if_neg (by simp), if_pos (by simp), List.tail_cons]

theorem shiftMatch_exact (d1 d2 : List Char) (h1 : d1 ≠ []) (h2 : d2 ≠ [])
    (hd1 : ∀ c ∈ d1, c.isDigit = true) (hd2 : ∀ c ∈ d2, c.isDigit = true) :
    shiftMatch (d1 ++ '<' :: '<' :: d2) = some (d1, d2, []) := by
  have hds : (d1 ++ '<' :: '<' :: d2).dropWhile isSpace = d1 ++ '<' :: '<' :: d2 := by
    cases d1 with
    | nil => exact absurd rfl h1
    | cons a d1' =>
      rw [List.cons_append, List.dropWhile_cons_of_neg]
      simp [digit_not_space a (hd1 a (List.mem_cons_self a d1'))]
  have t1 := takeDrop_append Char.isDigit d1 ('<' :: '<' :: d2) hd1
    (by intro h hh; injection hh with hh1; subst hh1; decide)
  have t2 := takeWhile_all_of Char.isDigit d2 hd2
  unfold shiftMatch
  dsimp only
  rw [hds, t1.1, t1.2]
  cases d1 with
  | nil => exact absurd rfl h1
  | cons a d1' =>
    rw [if_neg (by simp), if_pos (by simp), List.tail_cons, List.tail_cons, t2.1, t2.2]
    cases d2 with
    | nil => exact absurd rfl h2
    | cons b d2' => rw [if_neg (by simp)]

theorem subMul_single (d1 d2 : List Char) (h1 : d1 ≠ []) (h2 : d2 ≠ [])
    (hd1 : ∀ c ∈ d1, c.isDigit = true) (hd2 : ∀ c ∈ d2, c.isDigit = true) :
    subMul ('[' :: (d1 ++ '*' :: (d2 ++ [']']))) =
      '[' :: (natRepr (parseNat d1 * parseNat d2) ++ [']']) := by
  unfold subMul
  have hlen : ('[' :: (d1 ++ '*' :: (d2 ++ [']']))).length =
      (d1 ++ '*' :: (d2 ++ [']'])).length + 1 := by simp
  rw [hlen, subMulAux.eq_3, if_pos rfl]
  have hm : mulMatch (d1 ++ '*' :: (d2 ++ ']' :: ([] : List Char))) = some (d1, d2, []) :=
    mulMatch_exact d1 d2 [] h1 h2 hd1 hd2
  rw [show d1 ++ '*' :: (d2 ++ [']']) = d1 ++ '*' :: (d2 ++ ']' :: ([] : List Char)) from rfl,
    hm]
  dsimp only
  rw [subMulAux.eq_1]

theorem subShift_single (d1 d2 : List Char) (h1 : d1 ≠ []) (h2 : d2 ≠ [])
    (hd1 : ∀ c ∈ d1, c.isDigit = true) (hd2 : ∀ c ∈ d2, c.isDigit = true) :
    subShift ('=' :: (d1 ++ '<' :: '<' :: d2)) =
      '=' :: ' ' :: natRepr (parseNat d1 * 2 ^ parseNat d2) := by
  unfold subShift
  have hlen : ('=' :: (d1 ++ '<' :: '<' :: d2)).length =
      (d1 ++ '<' :: '<' :: d2).length + 1 := by simp
  rw [hlen, subShiftAux.eq_3, if_pos rfl, shiftMatch_exact d1 d2 h1 h2 hd1 hd2]
  dsimp only
  rw [subShiftAux.eq_1]
  simp [Nat.shiftLeft_eq]

theorem subMulAux_prefixChunk : ∀ (pre : List Char), (∀ c ∈ pre, ¬ c = '[') →
    ∀ (f : Nat) (s : List Char),
      subMulAux (pre.length + f) (pre ++ s) = pre ++ subMulAux f s
  | [], _, f, s => by simp
  | c :: pre', hpre, f, s => by
    have hc : ¬ c = '[' := hpre c (List.mem_cons_self c pre')
    have hlen : (c :: pre').length + f = (pre'.length + f) + 1 := by
      simp
      omega
    rw [hlen, List.cons_append, subMulAux.eq_3, if_neg hc,
      subMulAux_prefixChunk pre' (fun a ha => hpre a (List.mem_cons_of_mem c ha)) f s,
      List.cons_append]

/-- A chunk containing no `[` is copied verbatim; every product rewrite
happens in the remainder. -/
theorem subMul_prefixChunk (pre s : List Char) (hpre : ∀ c ∈ pre, ¬ c = '[') :
    subMul (pre ++ s) = pre ++ subMul s := by
  unfold subMul
  rw [List.length_append, subMulAux_prefixChunk pre hpre s.length s]

theorem subShiftAux_prefixChunk : ∀ (pre : List Char), (∀ c ∈ pre, ¬ c = '=') →
    ∀ (f : Nat) (s : List Char),
      subShiftAux (pre.length + f) (pre ++ s) = pre ++ subShiftAux f s
  | [], _, f, s => by simp
  | c :: pre', hpre, f, s => by
    have hc : ¬ c = '=' := hpre c (List.mem_cons_self c pre')
    have hlen : (c :: pre').length + f = (pre'.length + f) + 1 := by
      simp
      omega
    rw [hlen, List.cons_append, subShiftAux.eq_3, if_neg hc,
      subShiftAux_prefixChunk pre' (fun a ha => hpre a (List.mem_cons_of_mem c ha)) f s,
      List.cons_append]

/-- A chunk containing no `=` is copied verbatim; every shift rewrite
happens in the remainder. -/
theorem subShift_prefixChunk (pre s : List Char) (hpre : ∀ c ∈ pre, ¬ c = '=') :
    subShift (pre ++ s) = pre ++ subShift s := by
  unfold subShift
  rw [List.length_append, subShiftAux_prefixChunk pre hpre s.length s]

/-!  Counter-independence of the orchestrated passes. -/

theorem fix_headers_map : ∀ (files : List (List Char)) (c : Int),
    (fix_headers c files).1 =
      files.map (fun f => (patch_string_st patch_bitfield (-1) f).1)
  | [], _ => rfl
  | f :: fs, c => by
    simp only [fix_headers, List.map_cons]
    rw [fix_headers_map fs]

theorem build_all_model_fst (pp : List Char → List Char)
    (tree : List (List Char)) (preloadh : List Char) (c c' : Int) :
    (build_all_model pp c tree preloadh).1 = (build_all_model pp c' tree preloadh).1 := by
  unfold build_all_model
  dsimp only
  rw [fix_headers_map, fix_headers_map, fix_headers_map, fix_headers_map]
  rfl

/-!  The claims. -/

/-- C1 (code bug): the spec demands that a non-zero preprocessor exit status
abort the build regardless of diagnostic output, but the source checks the
return code only inside `if err:` — on a non-zero exit with empty stderr
(`returncode = 1`, `stderr = ""`), `preprocess_header` does not exit and
instead writes the captured stdout back to the file. -/
theorem claim_C1_silent_failure_not_fatal :
    preprocess_header "int x;".data [] 1 = PreprocOutcome.wrote "int x;".data [] ∧
    (∀ stdout stderr : List Char, ∀ rc : Int, stderr ≠ [] → rc ≠ 0 →
      preprocess_header stdout stderr rc = PreprocOutcome.exited rc [stderr]) ∧
    (∀ stdout stderr : List Char, stderr ≠ [] →
      preprocess_header stdout stderr 0 = PreprocOutcome.wrote stdout [stderr]) := by
  refine ⟨by decide, ?_, ?_⟩
  · intro stdout stderr rc hs hr
    unfold preprocess_header
    rw [if_pos hs, if_pos hr]
  · intro stdout stderr hs
    unfold preprocess_header
    rw [if_pos hs, if_neg (by omega)]

/-- Witness for the conditional part of the C1 theorem: with non-empty
stderr and exit status 1 the embedded `preprocess_header` does abort. -/
theorem claim_C1_witness :
    ("error".data ≠ ([] : List Char) ∧ (1 : Int) ≠ 0) ∧
    preprocess_header "int x;".data "error".data 1 =
      PreprocOutcome.exited 1 ["error".data] :=
  ⟨⟨by decide, by decide⟩,
    claim_C1_silent_failure_not_fatal.2.1 "int x;".data "error".data 1
      (by decide) (by decide)⟩

/-- C5 (counterexample): text-level idempotence fails.  On `"x\n\n"` one
application of the bitfield pass yields `"x\n"` (the trailing empty line is
absorbed by split/join), and a second application yields `"x"`, so applying
the pass to its own output does change it. -/
theorem claim_C5_counterexample :
    patch_string_st patch_bitfield (-1) "x\n\n".data = ("x\n".data, -1) ∧
    patch_string_st patch_bitfield (-1) "x\n".data = ("x".data, -1) ∧
    "x\n".data ≠ "x".data :=
  ⟨by decide, by decide, by decide⟩

theorem patch_string_st_bitfield_id (c' : Int) (t' : List Char)
    (h : ∀ l ∈ splitlines t', bitfieldMatch l = none) :
    patch_string_st patch_bitfield c' t' = (joinLines (splitlines t'), c') := by
  unfold patch_string_st
  rw [mapCounter_bitfield_id _ c' h]

/-- C5 (amended): after one application of the bitfield pass no line of the
output matches the anonymous-bitfield pattern, so a second application
passes every line through unchanged and leaves the counter unchanged; the
re-joined text can differ from the first output only through the
split/join line-terminator normalisation (e.g. a trailing newline is
dropped), not through any line being rewritten. -/
theorem claim_C5_line_level_idempotence (c : Int) (t : List Char) :
    (∀ l ∈ splitlines (patch_string_st patch_bitfield c t).1, bitfieldMatch l = none) ∧
    (∀ c' : Int,
      patch_string_st patch_bitfield c' (patch_string_st patch_bitfield c t).1 =
        (joinLines (splitlines (patch_string_st patch_bitfield c t).1), c')) := by
  have hout := mapCounter_bitfield_lines (splitlines t) c (splitlines_clean t)
  have hjoin : ∀ x ∈ splitlines (patch_string_st patch_bitfield c t).1,
      x ∈ (mapCounter patch_bitfield c (splitlines t)).1 := by
    intro x hx
    exact splitlines_join_mem _ (fun a ha => (hout a ha).1) x hx
  constructor
  · intro l hl
    exact (hout l (hjoin l hl)).2
  · intro c'
    exact patch_string_st_bitfield_id c' _ (fun l hl => (hout l (hjoin l hl)).2)

/-- Witness for the C5 amended theorem at a concrete input: the rewritten
line produced from `"  : 3;"` no longer matches the pattern. -/
theorem claim_C5_witness :
    "__pQDBI_unused__0__: 3;".data ∈
        splitlines (patch_string_st patch_bitfield (-1) "  : 3;".data).1 ∧
    bitfieldMatch "__pQDBI_unused__0__: 3;".data = none :=
  ⟨by decide, (claim_C5_line_level_idempotence (-1) "  : 3;".data).1 _ (by decide)⟩

/-- C6 (confirmed): `patch_problematic` deletes every line containing the
compile-time-assertion marker `__compile_check`, every line beginning
`extern int qbdipreload_on_`, and every line containing a denylisted
variadic function name (`qbdi_call`, `qbdi_simulateCall`); every other line
is returned unchanged. -/
theorem claim_C6_problematic_filter (l : List Char) :
    ("__compile_check".data <:+: l → patch_problematic l = []) ∧
    ("extern int qbdipreload_on_".data <+: l → patch_problematic l = []) ∧
    (("qbdi_call".data <:+: l ∨ "qbdi_simulateCall".data <:+: l) →
      patch_problematic l = []) ∧
    (¬ "__compile_check".data <:+: l → ¬ "extern int qbdipreload_on_".data <+: l →
      ¬ "qbdi_call".data <:+: l → ¬ "qbdi_simulateCall".data <:+: l →
      patch_problematic l = l) := by
  have hany : (VARADIC_FUNCTIONS.any fun vf => containsSub vf l) = true ↔
      ("qbdi_call".data <:+: l ∨ "qbdi_simulateCall".data <:+: l) := by
    simp [VARADIC_FUNCTIONS, containsSub_iff]
  refine ⟨?_, ?_, ?_, ?_⟩
  · intro h
    rw [patch_problematic, if_pos ((containsSub_iff _ l).2 h)]
  · intro h
    by_cases h1 : containsSub "__compile_check".data l = true
    · rw [patch_problematic, if_pos h1]
    · rw [patch_problematic, if_neg h1, if_pos ((isPrefixList_iff _ l).2 h)]
  · intro h
    by_cases h1 : containsSub "__compile_check".data l = true
    · rw [patch_problematic, if_pos h1]
    · by_cases h2 : isPrefixList "extern int qbdipreload_on_".data l = true
      · rw [patch_problematic, if_neg h1, if_pos h2]
      · rw [patch_problematic, if_neg h1, if_neg h2, if_pos (hany.2 h)]
  · intro h1 h2 h3 h4
    rw [patch_problematic, if_neg (fun hc => h1 ((containsSub_iff _ l).1 hc)),
      if_neg (fun hc => h2 ((isPrefixList_iff _ l).1 hc)),
      if_neg (fun hc => (hany.1 hc).elim h3 h4)]

/-- Witness for C6: a line mentioning `qbdi_call` is deleted. -/
theorem claim_C6_witness :
    ("qbdi_call".data <:+: "int qbdi_call(int);".data ∨
      "qbdi_simulateCall".data <:+: "int qbdi_call(int);".data) ∧
    patch_problematic "int qbdi_call(int);".data = [] :=
  ⟨Or.inl ⟨"int ".data, "(int);".data, by decide⟩,
    (claim_C6_problematic_filter _).2.2.1 (Or.inl ⟨"int ".data, "(int);".data, by decide⟩)⟩

/-- C7 (confirmed): the arithmetic folder rewrites the spec's examples as
stated (`char buf[12*4];` to `char buf[48];`, `x = 1<<8;` to `x = 256;`,
and leaves `y = 1<<(a+b);` alone), and in general a bracketed product of
two decimal literals becomes the bracketed exact decimal product while
`= d1<<d2` becomes `= ` followed by the exact value `d1 * 2 ^ d2`. -/
theorem claim_C7_arithmetic_folder :
    patch_arithmetic_expressions "char buf[12*4];".data = "char buf[48];".data ∧
    patch_arithmetic_expressions "x = 1<<8;".data = "x = 256;".data ∧
    patch_arithmetic_expressions "y = 1<<(a+b);".data = "y = 1<<(a+b);".data ∧
    (∀ d1 d2 : List Char, d1 ≠ [] → d2 ≠ [] →
      (∀ c ∈ d1, c.isDigit = true) → (∀ c ∈ d2, c.isDigit = true) →
      subMul ('[' :: (d1 ++ '*' :: (d2 ++ [']']))) =
          '[' :: (natRepr (parseNat d1 * parseNat d2) ++ [']']) ∧
        subShift ('=' :: (d1 ++ '<' :: '<' :: d2)) =
          '=' :: ' ' :: natRepr (parseNat d1 * 2 ^ parseNat d2)) ∧
    (∀ pre s : List Char, (∀ c ∈ pre, ¬ c = '[') →
      subMul (pre ++ s) = pre ++ subMul s) ∧
    (∀ pre s : List Char, (∀ c ∈ pre, ¬ c = '=') →
      subShift (pre ++ s) = pre ++ subShift s) :=
  ⟨by decide, by decide, by decide,
    fun d1 d2 h1 h2 hd1 hd2 =>
      ⟨subMul_single d1 d2 h1 h2 hd1 hd2, subShift_single d1 d2 h1 h2 hd1 hd2⟩,
    subMul_prefixChunk, subShift_prefixChunk⟩

/-- Witness for the general parts of C7 at `d1 = "3"`, `d2 = "5"`, and
chunk `"char b"`. -/
theorem claim_C7_witness :
    ("3".data ≠ ([] : List Char) ∧ "5".data ≠ ([] : List Char) ∧
      (∀ c ∈ "3".data, c.isDigit = true) ∧ (∀ c ∈ "5".data, c.isDigit = true) ∧
      (∀ c ∈ "char b".data, ¬ c = '[') ∧ (∀ c ∈ "char b".data, ¬ c = '=')) ∧
    (subMul ('[' :: ("3".data ++ '*' :: ("5".data ++ [']']))) =
        '[' :: (natRepr (parseNat "3".data * parseNat "5".data) ++ [']']) ∧
      subShift ('=' :: ("3".data ++ '<' :: '<' :: "5".data)) =
        '=' :: ' ' :: natRepr (parseNat "3".data * 2 ^ parseNat "5".data)) ∧
    subMul ("char b".data ++ "[3*5]".data) = "char b".data ++ subMul "[3*5]".data ∧
    subShift ("char b".data ++ "=1<<2;".data) =
      "char b".data ++ subShift "=1<<2;".data :=
  ⟨⟨by decide, by decide, by decide, by decide, by decide, by decide⟩,
    claim_C7_arithmetic_folder.2.2.2.1 "3".data "5".data
      (by decide) (by decide) (by decide) (by decide),
    claim_C7_arithmetic_folder.2.2.2.2.1 "char b".data "[3*5]".data (by decide),
    claim_C7_arithmetic_folder.2.2.2.2.2 "char b".data "=1<<2;".data (by decide)⟩

/-- C8 (confirmed): within one reset scope the generated names are pairwise
distinct, the counter grows by exactly one per call (so it is strictly
monotone from the start value `-1`), and `fix_headers` processes every file
from a freshly reset counter, independently of the incoming counter
state. -/
theorem claim_C8_generator_invariants (lines : Nat → List Char) (k : Nat) :
    List.Pairwise (fun a b => a ≠ b) (runCallsOn lines (-1) k).1 ∧
    (∀ (c : Int) (j : Nat), (runCallsOn lines c j).2 = c + j) ∧
    (∀ (c : Int) (files : List (List Char)),
      (fix_headers c files).1 =
        files.map (fun f => (patch_string_st patch_bitfield (-1) f).1)) :=
  ⟨runCallsOn_nodup k lines, fun c j => (runCallsOn_spec j lines c).2,
    fun c files => fix_headers_map files c⟩

/-- C9 (confirmed): with the external preprocessor a fixed function, the
whole pipeline's output depends only on the staged input tree and entry
header; in particular a second run started from the counter state the first
run left behind produces byte-identical output. -/
theorem claim_C9_pipeline_deterministic (pp : List Char → List Char) (c0 : Int)
    (tree : List (List Char)) (preloadh : List Char) :
    (build_all_model pp (build_all_model pp c0 tree preloadh).2 tree preloadh).1 =
      (build_all_model pp c0 tree preloadh).1 :=
  build_all_model_fst pp tree preloadh _ c0

/-- C10 (confirmed): `mk_unique_name` ignores its line argument, and the
`i`-th call after a reset returns exactly `__pQDBI_unused__<i>__`. -/
theorem claim_C10_placeholder_shape (lines : Nat → List Char) (k i : Nat)
    (h : i < k) :
    (runCallsOn lines (-1) k).1[i]? =
      some ("__pQDBI_unused__".data ++ natRepr i ++ "__".data) ∧
    (∀ (c : Int) (l1 l2 : List Char), mk_unique_name c l1 = mk_unique_name c l2) :=
  ⟨runCallsOn_get k i h lines, fun _ _ _ => rfl⟩

/-- Witness for C10 at `k = 3`, `i = 1`. -/
theorem claim_C10_witness :
    1 < 3 ∧
    (runCallsOn (fun _ => "int x;".data) (-1) 3).1[1]? =
      some ("__pQDBI_unused__".data ++ natRepr 1 ++ "__".data) :=
  ⟨by decide, (claim_C10_placeholder_shape (fun _ => "int x;".data) 3 1 (by decide)).1⟩

/-!  Declarative characterisation of the define pattern (claim C2). -/

theorem ne_nil_of_not_isEmpty {l : List Char} (h : ¬ l.isEmpty = true) : l ≠ [] := by
  cases l with
  | nil => exact absurd rfl h
  | cons a t => exact List.cons_ne_nil a t

theorem not_isEmpty_of_ne_nil {l : List Char} (h : l ≠ []) : ¬ l.isEmpty = true := by
  cases l with
  | nil => exact absurd rfl h
  | cons a t => simp

theorem defineMatch_iff (l nm ds : List Char) :
    defineMatch l = some (nm, ds) ↔ DefineShape l nm ds := by
  constructor
  · intro h
    unfold defineMatch at h
    cases hs : stripPre "#define".data l with
    | none => rw [hs] at h; cases h
    | some r0 =>
      rw [hs] at h
      dsimp only at h
      have e0 : l = "#define".data ++ r0 := (stripPre_eq_some _ _ _).1 hs
      have e1 : r0 = r0.takeWhile isSpace ++ r0.dropWhile isSpace :=
        (List.takeWhile_append_dropWhile isSpace r0).symm
      generalize hw1 : r0.takeWhile isSpace = w1 at h
      generalize hr1 : r0.dropWhile isSpace = r1 at h
      have e2 : r1 = r1.takeWhile (fun c => !isSpace c) ++
          r1.dropWhile (fun c => !isSpace c) :=
        (List.takeWhile_append_dropWhile _ r1).symm
      generalize hnm : r1.takeWhile (fun c => !isSpace c) = nm0 at h
      generalize hr2 : r1.dropWhile (fun c => !isSpace c) = r2 at h
      have e3 : r2 = r2.takeWhile isSpace ++ r2.dropWhile isSpace :=
        (List.takeWhile_append_dropWhile isSpace r2).symm
      generalize hw2 : r2.takeWhile isSpace = w2 at h
      generalize hr3 : r2.dropWhile isSpace = r3 at h
      have e4 : r3 = r3.takeWhile Char.isDigit ++ r3.dropWhile Char.isDigit :=
        (List.takeWhile_append_dropWhile Char.isDigit r3).symm
      generalize hds : r3.takeWhile Char.isDigit = ds0 at h
      generalize hr4 : r3.dropWhile Char.isDigit = r4 at h
      split at h
      · cases h
      split at h
      · cases h
      split at h
      · cases h
      split at h
      · cases h
      split at h
      case isFalse.isFalse.isFalse.isFalse.isTrue hne1 hne2 hne3 hne4 hall =>
        injection h with h2
        injection h2 with hnm2 hds2
        subst hnm2
        subst hds2
        refine ⟨w1, w2, r4, ?_, ne_nil_of_not_isEmpty hne1, ?_,
          ne_nil_of_not_isEmpty hne2, ?_, ne_nil_of_not_isEmpty hne3, ?_,
          ne_nil_of_not_isEmpty hne4, ?_, ?_⟩
        · rw [e0, e1, hw1, hr1, e2, hnm, hr2, e3, hw2, hr3, e4, hds, hr4]
        · intro c hc
          exact mem_takeWhileP isSpace r0 c (hw1 ▸ hc)
        · intro c hc
          have := mem_takeWhileP (fun c => !isSpace c) r1 c (hnm ▸ hc)
          simpa using this
        · intro c hc
          exact mem_takeWhileP isSpace r2 c (hw2 ▸ hc)
        · intro c hc
          exact mem_takeWhileP Char.isDigit r3 c (hds ▸ hc)
        · exact fun c hc => List.all_eq_true.1 hall c hc
      case isFalse.isFalse.isFalse.isFalse.isFalse => cases h
  · rintro ⟨w1, w2, w3, rfl, hw1ne, hw1, hnmne, hnm, hw2ne, hw2, hdsne, hds, hw3⟩
    unfold defineMatch
    rw [(stripPre_eq_some "#define".data _ _).2 rfl]
    dsimp only
    have hnmhead : ∀ hh : Char, (nm ++ (w2 ++ (ds ++ w3))).head? = some hh →
        isSpace hh = false := by
      cases nm with
      | nil => exact absurd rfl hnmne
      | cons a nm' =>
        intro hh hhh
        rw [List.cons_append, List.head?_cons] at hhh
        injection hhh with hhh
        subst hhh
        exact hnm a (List.mem_cons_self a nm')
    have hw2head : ∀ hh : Char, (w2 ++ (ds ++ w3)).head? = some hh →
        (!isSpace hh) = false := by
      cases w2 with
      | nil => exact absurd rfl hw2ne
      | cons a w2' =>
        intro hh hhh
        rw [List.cons_append, List.head?_cons] at hhh
        injection hhh with hhh
        subst hhh
        simp [hw2 a (List.mem_cons_self a w2')]
    have hdshead : ∀ hh : Char, (ds ++ w3).head? = some hh →
        isSpace hh = false := by
      cases ds with
      | nil => exact absurd rfl hdsne
      | cons a ds' =>
        intro hh hhh
        rw [List.cons_append, List.head?_cons] at hhh
        injection hhh with hhh
        subst hhh
        exact digit_not_space a (hds a (List.mem_cons_self a ds'))
    have hw3head : ∀ hh : Char, w3.head? = some hh → hh.isDigit = false := by
      cases w3 with
      | nil => intro hh hhh; cases hhh
      | cons a w3' =>
        intro hh hhh
        rw [List.head?_cons] at hhh
        injection hhh with hhh
        subst hhh
        exact space_not_digit a (hw3 a (List.mem_cons_self a w3'))
    have t1 := takeDrop_append isSpace w1 (nm ++ (w2 ++ (ds ++ w3))) hw1 hnmhead
    have t2 := takeDrop_append (fun c => !isSpace c) nm (w2 ++ (ds ++ w3))
      (fun c hc => by simp [hnm c hc]) hw2head
    have t3 := takeDrop_append isSpace w2 (ds ++ w3) hw2 hdshead
    have t4 := takeDrop_append Char.isDigit ds w3 hds hw3head
    rw [t1.1, t1.2, t2.1, t2.2, t3.1, t3.2, t4.1, t4.2,
      if_neg (not_isEmpty_of_ne_nil hw1ne), if_neg (not_isEmpty_of_ne_nil hnmne),
      if_neg (not_isEmpty_of_ne_nil hw2ne), if_neg (not_isEmpty_of_ne_nil hdsne),
      if_pos (List.all_eq_true.2 hw3)]

/-- C2 (counterexample): the claim says function-like macro lines are left
untouched, but `\S+` also matches `FOO(x)`, so a function-like macro whose
body is a single decimal integer is rewritten. -/
theorem claim_C2_counterexample :
    patch_defines "#define FOO(x) 1".data = "const int FOO(x) = 1;".data ∧
    patch_defines "#define FOO(x) 1".data ≠ "#define FOO(x) 1".data :=
  ⟨by decide, by decide⟩

/-- C2 (amended): `patch_defines` rewrites a line to
`const int NAME = INTEGER;` exactly when the line is `#define`, spaces, a
single whitespace-free token NAME (not necessarily an identifier — a
function-like macro head such as `FOO(x)` qualifies), spaces, a single
decimal integer, and optional trailing whitespace; all other lines pass
through unchanged. -/
theorem claim_C2_define_folder (l nm ds : List Char) :
    (defineMatch l = some (nm, ds) ↔ DefineShape l nm ds) ∧
    (defineMatch l = some (nm, ds) →
      patch_defines l = "const int ".data ++ nm ++ " = ".data ++ ds ++ [';']) ∧
    (defineMatch l = none → patch_defines l = l) := by
  refine ⟨defineMatch_iff l nm ds, ?_, ?_⟩
  · intro h
    unfold patch_defines
    rw [h]
  · intro h
    unfold patch_defines
    rw [h]

/-- Witness for C2 at `#define A 5`. -/
theorem claim_C2_witness :
    defineMatch "#define A 5".data = some ("A".data, "5".data) ∧
    patch_defines "#define A 5".data =
      "const int ".data ++ "A".data ++ " = ".data ++ "5".data ++ [';'] :=
  ⟨by decide,
    (claim_C2_define_folder "#define A 5".data "A".data "5".data).2.1 (by decide)⟩

/-!  Declarative characterisation of the angle-include pattern (claim C4). -/

theorem eq_cons_of_head? {l : List Char} {a : Char} (h : l.head? = some a) :
    l = a :: l.tail := by
  cases l with
  | nil => cases h
  | cons b t =>
    rw [List.head?_cons] at h
    injection h with h
    subst h
    rfl

theorem angleMatch_iff (l x : List Char) :
    angleMatch l = some x ↔ AngleShape l x := by
  constructor
  · intro h
    unfold angleMatch at h
    cases hs : stripPre "#include".data l with
    | none => rw [hs] at h; cases h
    | some r0 =>
      rw [hs] at h
      dsimp only at h
      have e0 : l = "#include".data ++ r0 := (stripPre_eq_some _ _ _).1 hs
      have e1 : r0 = r0.takeWhile isSpace ++ r0.dropWhile isSpace :=
        (List.takeWhile_append_dropWhile isSpace r0).symm
      generalize hw1 : r0.takeWhile isSpace = w1 at h
      generalize hr1 : r0.dropWhile isSpace = r1 at h
      split at h
      · cases h
      split at h
      case isFalse.isTrue hne1 hlt =>
        have hr1c : r1 = '<' :: r1.tail := eq_cons_of_head? hlt
        have e2 : r1.tail.reverse = r1.tail.reverse.takeWhile isSpace ++
            r1.tail.reverse.dropWhile isSpace :=
          (List.takeWhile_append_dropWhile isSpace r1.tail.reverse).symm
        generalize hw2r : r1.tail.reverse.takeWhile isSpace = w2r at h
        generalize hrev : r1.tail.reverse.dropWhile isSpace = rev at h
        split at h
        case isTrue hgt =>
          have hrevc : rev = '>' :: rev.tail := eq_cons_of_head? hgt
          split at h
          · cases h
          case isFalse hnl =>
            injection h with h2
            subst h2
            refine ⟨w1, w2r.reverse, ?_, ne_nil_of_not_isEmpty (by assumption), ?_, ?_, ?_⟩
            · rw [e0, e1, hw1, hr1, hr1c]
              have : r1.tail = rev.tail.reverse ++ '>' :: w2r.reverse := by
                have h3 : r1.tail.reverse = w2r ++ '>' :: rev.tail := by
                  conv_lhs => rw [e2, hw2r, hrev, hrevc]
                have h4 := congrArg List.reverse h3
                rw [List.reverse_reverse] at h4
                rw [h4]
                simp
              rw [this]
            · intro c hc
              exact mem_takeWhileP isSpace r0 c (hw1 ▸ hc)
            · intro c hc
              exact mem_takeWhileP isSpace r1.tail.reverse c
                (hw2r ▸ List.mem_reverse.1 hc)
            · exact hnl
        · cases h
      · cases h
  · rintro ⟨w1, w2, rfl, hw1ne, hw1, hw2, hnx⟩
    unfold angleMatch
    rw [(stripPre_eq_some "#include".data _ _).2 rfl]
    dsimp only
    have t1 := takeDrop_append isSpace w1 ('<' :: (x ++ '>' :: w2)) hw1
      (by intro hh hhh; injection hhh with hhh; subst hhh; decide)
    rw [t1.1, t1.2, if_neg (not_isEmpty_of_ne_nil hw1ne),
      if_pos (by rw [List.head?_cons]), List.tail_cons]
    have hrev : (x ++ '>' :: w2).reverse = w2.reverse ++ '>' :: x.reverse := by
      simp
    have t2 := takeDrop_append isSpace w2.reverse ('>' :: x.reverse)
      (fun c hc => hw2 c (List.mem_reverse.1 hc))
      (by intro hh hhh; injection hhh with hhh; subst hhh; decide)
    rw [hrev, t2.2, if_pos (by rw [List.head?_cons]), List.tail_cons,
      List.reverse_reverse, if_neg hnx]

/-- C4 (counterexample): `#include <>` is an angle-bracket include whose
empty target does not begin with `QBDI`, so the claim demands it be
commented out; the code's truthiness test `if groups[1]:` skips the empty
capture and leaves the line untouched. -/
theorem claim_C4_counterexample :
    angleMatch "#include <>".data = some [] ∧
    patch_includes "#include <>".data = "#include <>".data ∧
    patch_includes "#include <>".data ≠ "//PATCH//".data ++ "#include <>".data :=
  ⟨by decide, by decide, by decide⟩

/-- C4 (amended): `patch_includes` never disables an angle include whose
target begins with `QBDI`; it comments out every angle include whose target
is non-empty and does not begin with `QBDI`; and it leaves angle includes
with an empty target, quoted includes, and all other lines untouched. -/
theorem claim_C4_include_patcher (l x : List Char) :
    (angleMatch l = some x ↔ AngleShape l x) ∧
    (angleMatch l = some x → x ≠ [] → isPrefixList "QBDI".data x = false →
      patch_includes l = "//PATCH//".data ++ l) ∧
    (angleMatch l = some x → isPrefixList "QBDI".data x = true →
      patch_includes l = l) ∧
    (angleMatch l = some x → x = [] → patch_includes l = l) ∧
    (angleMatch l = none → patch_includes l = l) := by
  refine ⟨angleMatch_iff l x, ?_, ?_, ?_, ?_⟩
  · intro h hne hpre
    unfold patch_includes
    rw [h]
    cases x with
    | nil => exact absurd rfl hne
    | cons a x' =>
      dsimp only
      rw [if_neg (by simp [hpre])]
  · intro h hpre
    unfold patch_includes
    rw [h]
    cases x with
    | nil => rfl
    | cons a x' =>
      dsimp only
      rw [if_pos hpre]
  · intro h hx
    subst hx
    unfold patch_includes
    rw [h]
  · intro h
    unfold patch_includes
    rw [h]

/-- Witness for C4 at `#include <stdio.h>`. -/
theorem claim_C4_witness :
    (angleMatch "#include <stdio.h>".data = some "stdio.h".data ∧
      "stdio.h".data ≠ ([] : List Char) ∧
      isPrefixList "QBDI".data "stdio.h".data = false) ∧
    patch_includes "#include <stdio.h>".data =
      "//PATCH//".data ++ "#include <stdio.h>".data :=
  ⟨⟨by decide, by decide, by decide⟩,
    (claim_C4_include_patcher "#include <stdio.h>".data "stdio.h".data).2.1
      (by decide) (by decide) (by decide)⟩

/-!  Declarative characterisation of the anonymous-bitfield pattern
(claim C3). -/

theorem afterColon_of_shape (rest ds : List Char) (p : Char)
    (h : AfterColonShape rest ds p) : afterColon rest = some (ds, p) := by
  obtain ⟨w1, w2, t, rfl, hw1, hdsne, hds, hw2, hp⟩ := h
  unfold afterColon
  dsimp only
  have hdshead : ∀ hh : Char, (ds ++ (w2 ++ p :: t)).head? = some hh →
      isSpace hh = false := by
    cases ds with
    | nil => exact absurd rfl hdsne
    | cons a ds' =>
      intro hh hhh
      rw [List.cons_append, List.head?_cons] at hhh
      injection hhh with hhh
      subst hhh
      exact digit_not_space a (hds a (List.mem_cons_self a ds'))
  have hw2head : ∀ hh : Char, (w2 ++ p :: t).head? = some hh →
      hh.isDigit = false := by
    cases w2 with
    | nil =>
      intro hh hhh
      rw [List.nil_append, List.head?_cons] at hhh
      injection hhh with hhh
      subst hhh
      rcases hp with rfl | rfl <;> decide
    | cons a w2' =>
      intro hh hhh
      rw [List.cons_append, List.head?_cons] at hhh
      injection hhh with hhh
      subst hhh
      exact space_not_digit a (hw2 a (List.mem_cons_self a w2'))
  have hphead : ∀ hh : Char, (p :: t).head? = some hh → isSpace hh = false := by
    intro hh hhh
    rw [List.head?_cons] at hhh
    injection hhh with hhh
    subst hhh
    rcases hp with rfl | rfl <;> decide
  have t1 := takeDrop_append isSpace w1 (ds ++ (w2 ++ p :: t)) hw1 hdshead
  have t2 := takeDrop_append Char.isDigit ds (w2 ++ p :: t) hds hw2head
  have t3 := takeDrop_append isSpace w2 (p :: t) hw2 hphead
  rw [t1.2, t2.1, t2.2, t3.2]
  cases ds with
  | nil => exact absurd rfl hdsne
  | cons a ds' =>
    dsimp only
    rcases hp with rfl | rfl <;> rfl

theorem afterColon_shape (rest ds : List Char) (p : Char)
    (h : afterColon rest = some (ds, p)) : AfterColonShape rest ds p := by
  unfold afterColon at h
  dsimp only at h
  have e0 : rest = rest.takeWhile isSpace ++ rest.dropWhile isSpace :=
    (List.takeWhile_append_dropWhile isSpace rest).symm
  generalize hw1 : rest.takeWhile isSpace = w1 at h
  generalize hcs1 : rest.dropWhile isSpace = cs1 at h
  have e1 : cs1 = cs1.takeWhile Char.isDigit ++ cs1.dropWhile Char.isDigit :=
    (List.takeWhile_append_dropWhile Char.isDigit cs1).symm
  generalize hds0 : cs1.takeWhile Char.isDigit = ds0 at h
  generalize hr : cs1.dropWhile Char.isDigit = r at h
  have e2 : r = r.takeWhile isSpace ++ r.dropWhile isSpace :=
    (List.takeWhile_append_dropWhile isSpace r).symm
  generalize hw2 : r.takeWhile isSpace = w2 at h
  generalize hrd : r.dropWhile isSpace = rd at h
  split at h
  · cases h
  case h_2 a ds' =>
    split at h
    case h_1 u1 tl =>
      injection h with h2
      injection h2 with h3 h4
      subst h3
      subst h4
      refine ⟨w1, w2, tl, ?_, ?_, List.cons_ne_nil a ds', ?_, ?_, Or.inl rfl⟩
      · rw [e0, hw1, hcs1, e1, hds0, hr, e2, hw2, hrd]
      · intro c hc
        exact mem_takeWhileP isSpace rest c (hw1 ▸ hc)
      · intro c hc
        exact mem_takeWhileP Char.isDigit cs1 c (hds0 ▸ hc)
      · intro c hc
        exact mem_takeWhileP isSpace r c (hw2 ▸ hc)
    case h_2 u1 tl =>
      injection h with h2
      injection h2 with h3 h4
      subst h3
      subst h4
      refine ⟨w1, w2, tl, ?_, ?_, List.cons_ne_nil a ds', ?_, ?_, Or.inr rfl⟩
      · rw [e0, hw1, hcs1, e1, hds0, hr, e2, hw2, hrd]
      · intro c hc
        exact mem_takeWhileP isSpace rest c (hw1 ▸ hc)
      · intro c hc
        exact mem_takeWhileP Char.isDigit cs1 c (hds0 ▸ hc)
      · intro c hc
        exact mem_takeWhileP isSpace r c (hw2 ▸ hc)
    case h_3 => cases h

theorem orElseO_isSome_right (a b : Option (List Char × Char))
    (h : b.isSome = true) : (orElseO a b).isSome = true := by
  unfold orElseO
  split
  · rfl
  · exact h

theorem findCommentEnd_shape : ∀ (cs : List Char),
    (findCommentEnd cs).isSome = true → CommentSplit cs
  | [] => by
    intro h
    rw [findCommentEnd.eq_1] at h
    cases h
  | c :: rest => by
    intro h
    rw [findCommentEnd.eq_def] at h
    dsimp only at h
    split at h
    · cases h
    case isFalse hn =>
      split at h
      case isTrue hstar =>
        subst hstar
        split at h
        case isTrue hsl =>
          have hrc : rest = '/' :: rest.tail := eq_cons_of_head? hsl
          unfold orElseO at h
          split at h
          case h_1 y hy =>
            split at hy
            case h_1 r heq =>
              refine ⟨[], rest.tail.takeWhile isSpace, r, ?_, by simp, ?_, ?_⟩
              · rw [List.nil_append]
                have h2 : rest.tail = rest.tail.takeWhile isSpace ++ ':' :: r := by
                  conv_lhs =>
                    rw [← List.takeWhile_append_dropWhile isSpace rest.tail, heq]
                conv_lhs => rw [hrc, h2]
              · exact fun a ha => mem_takeWhileP isSpace rest.tail a ha
              · rw [hy]
                rfl
            case h_2 => cases hy
          case h_2 =>
            obtain ⟨x, w2, r, hdec, hnx, hw2, hac⟩ := findCommentEnd_shape rest h
            refine ⟨'*' :: x, w2, r, ?_, ?_, hw2, hac⟩
            · rw [List.cons_append, hdec]
            · intro hm
              rcases List.mem_cons.1 hm with hm | hm
              · cases hm
              · exact hnx hm
        case isFalse =>
          obtain ⟨x, w2, r, hdec, hnx, hw2, hac⟩ := findCommentEnd_shape rest h
          refine ⟨'*' :: x, w2, r, ?_, ?_, hw2, hac⟩
          · rw [List.cons_append, hdec]
          · intro hm
            rcases List.mem_cons.1 hm with hm | hm
            · cases hm
            · exact hnx hm
      case isFalse hnstar =>
        obtain ⟨x, w2, r, hdec, hnx, hw2, hac⟩ := findCommentEnd_shape rest h
        refine ⟨c :: x, w2, r, ?_, ?_, hw2, hac⟩
        · rw [List.cons_append, hdec]
        · intro hm
          rcases List.mem_cons.1 hm with hm | hm
          · exact hn hm.symm
          · exact hnx hm

theorem findCommentEnd_of_shape : ∀ (x : List Char), '\n' ∉ x →
    ∀ (w2 rest : List Char), (∀ c ∈ w2, isSpace c = true) →
      (afterColon rest).isSome = true →
      (findCommentEnd (x ++ '*' :: '/' :: (w2 ++ ':' :: rest))).isSome = true
  | [], _, w2, rest, hw2, hac => by
    rw [List.nil_append, findCommentEnd.eq_def]
    dsimp only
    rw [if_neg (by decide), if_pos rfl, if_pos (by rw [List.head?_cons]),
      List.tail_cons]
    have hdw : (w2 ++ ':' :: rest).dropWhile isSpace = ':' :: rest :=
      (takeDrop_append isSpace w2 (':' :: rest) hw2
        (by intro hh hhh; injection hhh with hhh; subst hhh; decide)).2
    rw [hdw]
    show (orElseO (afterColon rest)
      (findCommentEnd ('/' :: (w2 ++ ':' :: rest)))).isSome = true
    cases hy : afterColon rest with
    | none => rw [hy] at hac; cases hac
    | some y => rfl
  | c :: x', hnx, w2, rest, hw2, hac => by
    rw [List.cons_append, findCommentEnd.eq_def]
    dsimp only
    have hcn : ¬ c = '\n' := fun hh => hnx (hh ▸ List.mem_cons_self c x')
    rw [if_neg hcn]
    have ih := findCommentEnd_of_shape x' (fun hm => hnx (List.mem_cons_of_mem c hm))
      w2 rest hw2 hac
    by_cases hcs : c = '*'
    · rw [if_pos hcs]
      by_cases hsl : (x' ++ '*' :: '/' :: (w2 ++ ':' :: rest)).head? = some '/'
      · rw [if_pos hsl]
        exact orElseO_isSome_right _ _ ih
      · rw [if_neg hsl]
        exact ih
    · rw [if_neg hcs]
      exact ih

theorem bitfieldMatch_isSome_iff (l : List Char) :
    (bitfieldMatch l).isSome = true ↔ BitfieldShape l := by
  constructor
  · intro h
    unfold bitfieldMatch at h
    dsimp only at h
    have e0 : l = l.takeWhile isSpace ++ l.dropWhile isSpace :=
      (List.takeWhile_append_dropWhile isSpace l).symm
    generalize hw : l.takeWhile isSpace = w at h
    generalize hr : l.dropWhile isSpace = r at h
    split at h
    · cases h
    case h_2 a w' =>
      have hwmem : ∀ c ∈ a :: w', isSpace c = true := fun c hc =>
        mem_takeWhileP isSpace l c (hw ▸ hc)
      split at h
      case h_1 u1 rest =>
        cases hy : afterColon rest with
        | none => rw [hy] at h; cases h
        | some y =>
          obtain ⟨ds, p⟩ := y
          refine ⟨a :: w', [], rest, ds, p, ?_, List.cons_ne_nil a w', hwmem,
            Or.inl rfl, afterColon_shape rest ds p hy⟩
          rw [e0, hw, hr, List.nil_append]
      case h_2 u1 rest =>
        obtain ⟨x, w2, rest', hdec, hnx, hw2, hac⟩ := findCommentEnd_shape rest h
        cases hy : afterColon rest' with
        | none => rw [hy] at hac; cases hac
        | some y =>
          obtain ⟨ds, p⟩ := y
          refine ⟨a :: w', '/' :: '*' :: (x ++ '*' :: '/' :: w2), rest', ds, p, ?_,
            List.cons_ne_nil a w', hwmem, Or.inr ⟨x, w2, rfl, hnx, hw2⟩,
            afterColon_shape rest' ds p hy⟩
          rw [e0, hw, hr, hdec]
          simp
      case h_3 => cases h
  · rintro ⟨w, mid, rest, ds, p, rfl, hwne, hw, hmid, hac⟩
    have hsome : afterColon rest = some (ds, p) := afterColon_of_shape rest ds p hac
    unfold bitfieldMatch
    dsimp only
    rcases hmid with rfl | ⟨x, w2, rfl, hnx, hw2⟩
    · rw [List.nil_append] at *
      have t1 := takeDrop_append isSpace w (':' :: rest) hw
        (by intro hh hhh; injection hhh with hhh; subst hhh; decide)
      rw [t1.1, t1.2]
      cases w with
      | nil => exact absurd rfl hwne
      | cons a w' =>
        show (afterColon rest).isSome = true
        rw [hsome]
        rfl
    · have t1 := takeDrop_append isSpace w
        (('/' :: '*' :: (x ++ '*' :: '/' :: w2)) ++ ':' :: rest) hw
        (by intro hh hhh; injection hhh with hhh; subst hhh; decide)
      rw [t1.1, t1.2]
      cases w with
      | nil => exact absurd rfl hwne
      | cons a w' =>
        show (findCommentEnd ((x ++ '*' :: '/' :: w2) ++ ':' :: rest)).isSome = true
        have hassoc : (x ++ '*' :: '/' :: w2) ++ ':' :: rest =
            x ++ '*' :: '/' :: (w2 ++ ':' :: rest) := by simp
        rw [hassoc]
        refine findCommentEnd_of_shape x hnx w2 rest hw2 ?_
        rw [hsome]
        rfl

/-- C3 (counterexample): the claim says the rewrite preserves the rest of
the line, but the matched line is rebuilt from the two capture groups only:
on `"  : 10; /* flags */"` the leading whitespace and the text after the
`;` are discarded (and on other inputs the width is renormalised), so the
output is not the input with only the bare `: width` replaced. -/
theorem claim_C3_counterexample :
    patch_bitfield (-1) "  : 10; /* flags */".data =
      ("__pQDBI_unused__0__: 10;".data, 0) ∧
    "__pQDBI_unused__0__: 10;".data ≠
      "  __pQDBI_unused__0__: 10; /* flags */".data :=
  ⟨by decide, by decide⟩

/-- C3 (amended): a line matches exactly when it has the declared
anonymous-bitfield shape, and a matching line is rewritten to exactly
`<generated-name>: <width><punct>` — the fresh placeholder, a colon and a
space, the digit group re-rendered through `int()` (dropping leading
zeros), and the matched punctuation — discarding the leading whitespace,
any comment, the original spacing, and everything after the punctuation;
non-matching lines pass through unchanged with the counter untouched. -/
theorem claim_C3_bitfield_rewrite (l : List Char) :
    ((bitfieldMatch l).isSome = true ↔ BitfieldShape l) ∧
    (∀ (c : Int) (ds : List Char) (p : Char), bitfieldMatch l = some (ds, p) →
      patch_bitfield c l =
        (mkNameOf (c + 1) ++ ':' :: ' ' :: (natRepr (parseNat ds) ++ [p]), c + 1)) ∧
    (bitfieldMatch l = none → ∀ c : Int, patch_bitfield c l = (l, c)) := by
  refine ⟨bitfieldMatch_isSome_iff l, ?_, ?_⟩
  · intro c ds p h
    unfold patch_bitfield
    rw [h]
    rfl
  · intro h c
    unfold patch_bitfield
    rw [h]

/-- Witness for C3 at `"  : 3;"`. -/
theorem claim_C3_witness :
    bitfieldMatch "  : 3;".data = some ("3".data, ';') ∧
    patch_bitfield (-1) "  : 3;".data =
      (mkNameOf (-1 + 1) ++ ':' :: ' ' :: (natRepr (parseNat "3".data) ++ [';']),
        -1 + 1) :=
  ⟨by decide,
    (claim_C3_bitfield_rewrite "  : 3;".data).2.1 (-1) "3".data ';' (by decide)⟩

end Qbdpy
